import Mathlib

/-!
Verification of the LocalGpt voice chat client (`src/App.jsx`).

The development shallowly embeds the pure rendering pipeline
(`escapeHtml`, `highlightCodeToHtml`, `renderInline`,
`renderMarkdownText`, `MessageContent`) over `List Char`, and the
stateful stream / capture / playback controllers (`streamResponse`,
`sendMessage`, `cancelSpeechPlayback`, `startListening`) as explicit
state-passing functions over small state records.  Every definition is
translated from the JavaScript source; JS strings become `List Char`,
regex passes become explicit scanners with the same left-to-right,
advance-on-failure semantics as the JS regex engine.
-/

namespace LocalGpt

/-- JS whitespace characters relevant to `\s`, `String.prototype.trim`
and `.trim()`-based blank tests (ASCII portion, which is all the app
ever produces). -/
def isJsSpace (c : Char) : Bool :=
  c = ' ' || c = '\t' || c = '\n' || c = '\r' || c = '\x0b' || c = '\x0c'

/-- `s.trim()` is falsy / `!line.trim()`: the string is all whitespace. -/
def isBlankL (s : List Char) : Bool := s.all isJsSpace

/-- `s.trim()` on a JS string. -/
def jsTrim (s : List Char) : List Char :=
  ((s.dropWhile isJsSpace).reverse.dropWhile isJsSpace).reverse

/-- Characters of the fence language tag class `[a-zA-Z0-9_-]`. -/
def isFenceChar (c : Char) : Bool :=
  (c.isAlpha || c.isDigit) || c = '_' || c = '-'

/-- JS word characters (`\w`), used by the `\b` boundary assertions of
the highlighter regexes. -/
def isWordChar (c : Char) : Bool :=
  (c.isAlpha || c.isDigit) || c = '_'

/-! ## `escapeHtml`

```js
const escapeHtml = (value) =>
  value
    .replaceAll('&', '&amp;')
    .replaceAll('<', '&lt;')
    .replaceAll('>', '&gt;')
    .replaceAll('"', '&quot;')
    .replaceAll("'", '&#039;')
```
Each `replaceAll` has a single-character pattern, so it is a
character-wise substitution. -/

/-- `s.replaceAll(String.fromCharCode p, rep)` for a one-character
pattern `p`. -/
def replaceAllChar (p : Char) (rep : List Char) (s : List Char) : List Char :=
  s.flatMap fun c => if c = p then rep else [c]

def escapeHtml (s : List Char) : List Char :=
  replaceAllChar '\'' "&#039;".data <|
    replaceAllChar '"' "&quot;".data <|
      replaceAllChar '>' "&gt;".data <|
        replaceAllChar '<' "&lt;".data <|
          replaceAllChar '&' "&amp;".data s

/-- The per-character encoding `escapeHtml` performs once the five
cascaded passes are fused. -/
def encodeChar (c : Char) : List Char :=
  if c = '&' then "&amp;".data
  else if c = '<' then "&lt;".data
  else if c = '>' then "&gt;".data
  else if c = '"' then "&quot;".data
  else if c = '\'' then "&#039;".data
  else [c]

/-- The raw markup-significant characters that must never survive
escaping. -/
def isRawSpecial (c : Char) : Bool :=
  c = '<' || c = '>' || c = '"' || c = '\''

/-- Every ampersand in a list is immediately followed by one of the
five entity tails that `escapeHtml` itself introduces. -/
def ampOk : List Char → Bool
  | [] => true
  | c :: rest =>
      (if c = '&' then
        ("amp;".data.isPrefixOf rest || "lt;".data.isPrefixOf rest ||
          "gt;".data.isPrefixOf rest || "quot;".data.isPrefixOf rest ||
          "#039;".data.isPrefixOf rest)
       else true) && ampOk rest

/-! ## `highlightCodeToHtml`

The four `String.prototype.replace` passes are embedded as explicit
scanners.  A finder returns `(pre, match, rest)`: the text before the
earliest match, the matched text (= capture `$1`, which is the whole
match in all four regexes), and the text after it, mirroring the JS
regex engine's left-to-right scan that advances one character when a
match attempt at a position fails. -/

def spanOpen (cls : List Char) : List Char :=
  "<span class=\"".data ++ cls ++ "\">".data

def spanClose : List Char := "</span>".data

/-- Finder for `/(\/\/.*$|#.*$)/gm`: from `//` or `#` to the end of the
line (multiline `$`). -/
def commentFind : List Char → Option (List Char × List Char × List Char)
  | [] => none
  | '/' :: '/' :: rest =>
      some ([], '/' :: '/' :: rest.takeWhile (· ≠ '\n'), rest.dropWhile (· ≠ '\n'))
  | '#' :: rest =>
      some ([], '#' :: rest.takeWhile (· ≠ '\n'), rest.dropWhile (· ≠ '\n'))
  | c :: rest =>
      (commentFind rest).map fun (p, m, r) => (c :: p, m, r)

/-- Finder for `/(".*?"|'.*?'|`[\s\S]*?`)/g`: a lazily closed quoted
span; `.` excludes newlines for the two quote forms. -/
def stringFind : List Char → Option (List Char × List Char × List Char)
  | [] => none
  | '"' :: rest =>
      let run := rest.takeWhile fun c => c ≠ '"' && c ≠ '\n'
      match rest.dropWhile (fun c => c ≠ '"' && c ≠ '\n') with
      | '"' :: tail => some ([], '"' :: (run ++ ['"']), tail)
      | _ => (stringFind rest).map fun (p, m, r) => ('"' :: p, m, r)
  | '\'' :: rest =>
      let run := rest.takeWhile fun c => c ≠ '\'' && c ≠ '\n'
      match rest.dropWhile (fun c => c ≠ '\'' && c ≠ '\n') with
      | '\'' :: tail => some ([], '\'' :: (run ++ ['\'']), tail)
      | _ => (stringFind rest).map fun (p, m, r) => ('\'' :: p, m, r)
  | '`' :: rest =>
      let run := rest.takeWhile (· ≠ '`')
      match rest.dropWhile (· ≠ '`') with
      | '`' :: tail => some ([], '`' :: (run ++ ['`']), tail)
      | _ => (stringFind rest).map fun (p, m, r) => ('`' :: p, m, r)
  | c :: rest =>
      (stringFind rest).map fun (p, m, r) => (c :: p, m, r)

/-- The keyword alternation of `keywordSet`, in source order. -/
def keywords : List (List Char) :=
  ["const", "let", "var", "function", "return", "if", "else", "for",
   "while", "class", "import", "from", "export", "async", "await",
   "def", "print", "True", "False", "None", "public", "private",
   "new", "try", "catch", "finally", "interface", "type"].map String.data

/-- Try the keyword alternatives in order at the current position; the
trailing `\b` requires the next character to be a non-word character
(or the end of input). -/
def kwTry : List (List Char) → List Char → Option (List Char × List Char)
  | [], _ => none
  | kw :: kws, s =>
      if kw.isPrefixOf s then
        match s.drop kw.length with
        | [] => some (kw, [])
        | c :: tail =>
            if isWordChar c then kwTry kws s else some (kw, c :: tail)
      else kwTry kws s

/-- Finder for `/(const|…|type)\b/g` (note: no `\b` before the word, as
in the source). -/
def keywordFind : List Char → Option (List Char × List Char × List Char)
  | [] => none
  | c :: rest =>
      match kwTry keywords (c :: rest) with
      | some (kw, r) => some ([], kw, r)
      | none => (keywordFind rest).map fun (p, m, r) => (c :: p, m, r)

/-- Finder for `/\b(\d+)\b/g`; `prevIsWord` tracks whether the
character before the current position is a word character (for the
leading `\b`). -/
def numberFindAux (prevIsWord : Bool) : List Char → Option (List Char × List Char × List Char)
  | [] => none
  | c :: rest =>
      if c.isDigit && !prevIsWord then
        let run := rest.takeWhile Char.isDigit
        match rest.dropWhile Char.isDigit with
        | [] => some ([], c :: run, [])
        | d :: tail =>
            if isWordChar d then
              (numberFindAux (isWordChar c) rest).map fun (p, m, r) => (c :: p, m, r)
            else some ([], c :: run, d :: tail)
      else (numberFindAux (isWordChar c) rest).map fun (p, m, r) => (c :: p, m, r)

def numberFind : List Char → Option (List Char × List Char × List Char) :=
  numberFindAux false

/-- `html.replace(regex, '<span class="cls">$1</span>')`: wrap every
match, never rescanning replacement text.  `fuel` bounds the number of
matches; every match consumes at least one character, so fuel
`s.length + 1` is always sufficient. -/
def runPass (find : List Char → Option (List Char × List Char × List Char))
    (cls : List Char) : Nat → List Char → List Char
  | 0, s => s
  | fuel + 1, s =>
      match find s with
      | none => s
      | some (p, m, r) =>
          p ++ spanOpen cls ++ m ++ spanClose ++ runPass find cls fuel r

/-- The list of substrings a pass wraps in spans (the `$1` captures),
in order. -/
def passCaptures (find : List Char → Option (List Char × List Char × List Char)) :
    Nat → List Char → List (List Char)
  | 0, _ => []
  | fuel + 1, s =>
      match find s with
      | none => []
      | some (_, m, r) => m :: passCaptures find fuel r

def jsLangs : List (List Char) :=
  ["js", "jsx", "ts", "tsx", "python", "py", "java", "c", "cpp", "go"].map String.data

def toLowerL (s : List Char) : List Char := s.map Char.toLower

def highlightCodeToHtml (code lang : List Char) : List Char :=
  let language := toLowerL lang
  let html := escapeHtml code
  if jsLangs.contains language then
    let h1 := runPass commentFind "token-comment".data (html.length + 1) html
    let h2 := runPass stringFind "token-string".data (h1.length + 1) h1
    let h3 := runPass keywordFind "token-keyword".data (h2.length + 1) h2
    runPass numberFind "token-number".data (h3.length + 1) h3
  else if language = "json".data then
    let h2 := runPass stringFind "token-string".data (html.length + 1) html
    runPass numberFind "token-number".data (h2.length + 1) h2
  else html

/-- The input the string-highlighting pass scans when
`highlightCodeToHtml` runs on a known C-like language: the output of
the comment pass. -/
def afterCommentPass (code : List Char) : List Char :=
  runPass commentFind "token-comment".data ((escapeHtml code).length + 1) (escapeHtml code)

/-- The substrings the string pass wraps in `token-string` spans for a
known C-like language. -/
def stringPassCaptures (code : List Char) : List (List Char) :=
  passCaptures stringFind ((afterCommentPass code).length + 1) (afterCommentPass code)

/-! ## `renderInline`

```js
const renderInline = (text) => {
  const segments = text.split(/(`[^`]+`|\*\*[^*]+\*\*|\*[^*]+\*)/g).filter(Boolean)
  ...
}
```
`split` with one capture group interleaves the unmatched stretches
with the matches; empty strings are dropped by `filter(Boolean)`;
each segment is then classified by the three full-match tests. -/

inductive Inline
  | text (s : List Char)
  | code (s : List Char)
  | bold (s : List Char)
  | em (s : List Char)
deriving DecidableEq, Repr

/-- Attempt `` `[^`]+` `` at the current position. -/
def inlineCodeAt : List Char → Option (List Char × List Char)
  | '`' :: rest =>
      let run := rest.takeWhile (· ≠ '`')
      if run.isEmpty then none
      else
        match rest.dropWhile (· ≠ '`') with
        | '`' :: tail => some ('`' :: (run ++ ['`']), tail)
        | _ => none
  | _ => none

/-- Attempt `\*\*[^*]+\*\*` at the current position. -/
def inlineBoldAt : List Char → Option (List Char × List Char)
  | '*' :: '*' :: rest =>
      let run := rest.takeWhile (· ≠ '*')
      if run.isEmpty then none
      else
        match rest.dropWhile (· ≠ '*') with
        | '*' :: '*' :: tail => some ('*' :: '*' :: (run ++ ['*', '*']), tail)
        | _ => none
  | _ => none

/-- Attempt `\*[^*]+\*` at the current position. -/
def inlineEmAt : List Char → Option (List Char × List Char)
  | '*' :: rest =>
      let run := rest.takeWhile (· ≠ '*')
      if run.isEmpty then none
      else
        match rest.dropWhile (· ≠ '*') with
        | '*' :: tail => some ('*' :: (run ++ ['*']), tail)
        | _ => none
  | _ => none

/-- Earliest match of the inline alternation, alternatives tried in
source order at each position. -/
def inlineFind : List Char → Option (List Char × List Char × List Char)
  | [] => none
  | c :: rest =>
      match inlineCodeAt (c :: rest) with
      | some (m, r) => some ([], m, r)
      | none =>
          match inlineBoldAt (c :: rest) with
          | some (m, r) => some ([], m, r)
          | none =>
              match inlineEmAt (c :: rest) with
              | some (m, r) => some ([], m, r)
              | none => (inlineFind rest).map fun (p, m, r) => (c :: p, m, r)

/-- `text.split(inlineRegex)` including the captures; every match
consumes at least three characters, so fuel `s.length + 1` suffices. -/
def inlineSegmentsF : Nat → List Char → List (List Char)
  | 0, s => [s]
  | fuel + 1, s =>
      match inlineFind s with
      | none => [s]
      | some (p, m, r) => p :: m :: inlineSegmentsF fuel r

/-- `/^`[^`]+`$/.test(segment)` -/
def testInlineCode : List Char → Bool
  | '`' :: rest =>
      rest.getLast? = some '`' && !rest.dropLast.isEmpty &&
        rest.dropLast.all (· ≠ '`')
  | _ => false

/-- `/^\*\*[^*]+\*\*$/.test(segment)` -/
def testInlineBold : List Char → Bool
  | '*' :: '*' :: rest =>
      match rest.reverse with
      | '*' :: '*' :: midrev => !midrev.isEmpty && midrev.all (· ≠ '*')
      | _ => false
  | _ => false

/-- `/^\*[^*]+\*$/.test(segment)` -/
def testInlineEm : List Char → Bool
  | '*' :: rest =>
      match rest.reverse with
      | '*' :: midrev => !midrev.isEmpty && midrev.all (· ≠ '*')
      | _ => false
  | _ => false

def classifySegment (seg : List Char) : Inline :=
  if testInlineCode seg then .code (seg.drop 1).dropLast
  else if testInlineBold seg then .bold ((seg.drop 2).dropLast).dropLast
  else if testInlineEm seg then .em (seg.drop 1).dropLast
  else .text seg

def renderInline (s : List Char) : List Inline :=
  ((inlineSegmentsF (s.length + 1) s).filter (¬ ·.isEmpty)).map classifySegment

/-! ## `renderMarkdownText` -/

inductive MdBlock
  | para (xs : List Inline)
  | spacer
  | ul (items : List (List Inline))
deriving DecidableEq, Repr

/-- `text.split('\n')`. -/
def splitLines : List Char → List (List Char)
  | [] => [[]]
  | c :: rest =>
      if c = '\n' then [] :: splitLines rest
      else
        match splitLines rest with
        | l :: ls => (c :: l) :: ls
        | [] => [[c]]

/-- `line.match(/^[-*]\s+(.*)$/)`: returns the captured item text. -/
def listItemOf : List Char → Option (List Char)
  | [] => none
  | c :: rest =>
      if c = '-' || c = '*' then
        if (rest.takeWhile isJsSpace).isEmpty then none
        else some (rest.dropWhile isJsSpace)
      else none

def flushList (pending : List (List Char)) : List MdBlock :=
  if pending.isEmpty then [] else [.ul (pending.map renderInline)]

def mdLoop : List (List Char) → List (List Char) → List MdBlock
  | [], pending => flushList pending
  | line :: rest, pending =>
      match listItemOf line with
      | some item => mdLoop rest (pending ++ [item])
      | none =>
          flushList pending ++
            (if isBlankL line then [MdBlock.spacer] else [.para (renderInline line)]) ++
            mdLoop rest []

def renderMarkdownText (t : List Char) : List MdBlock :=
  mdLoop (splitLines t) []

/-! ## `MessageContent`

```js
const parts = content.split(/```([a-zA-Z0-9_-]+)?\n([\s\S]*?)```/g)
```
The regex matches a *complete* fence: opening triple backtick,
optional language tag, a newline, the lazily matched body, and a
closing triple backtick. -/

inductive Part
  | text (s : List Char)
  | fence (lang : List Char) (code : List Char)
deriving DecidableEq, Repr

/-- Attempt the fence opener ``` ```(lang)?\n ``` at the current
position; returns the language capture and the remainder after the
newline. -/
def matchOpener : List Char → Option (List Char × List Char)
  | '`' :: '`' :: '`' :: rest =>
      match rest.dropWhile isFenceChar with
      | '\n' :: body => some (rest.takeWhile isFenceChar, body)
      | _ => none
  | _ => none

/-- Earliest occurrence of a closing triple backtick: splits
`s = pre ++ "```" ++ rest`. -/
def splitAtTicks : List Char → Option (List Char × List Char)
  | [] => none
  | '`' :: '`' :: '`' :: rest => some ([], rest)
  | c :: rest => (splitAtTicks rest).map fun (p, r) => (c :: p, r)

/-- Earliest full fence match: `(pre, lang, body, rest)`, scanning
left to right and advancing one position when a match attempt fails,
exactly as the JS regex engine does. -/
def findFence : List Char → Option (List Char × List Char × List Char × List Char)
  | [] => none
  | c :: rest =>
      match matchOpener (c :: rest) with
      | some (lang, body) =>
          match splitAtTicks body with
          | some (code, after) => some ([], lang, code, after)
          | none => (findFence rest).map fun (p, l, cd, r) => (c :: p, l, cd, r)
      | none => (findFence rest).map fun (p, l, cd, r) => (c :: p, l, cd, r)

/-- `content.split(fenceRegex)` with its two captures, as the
interleaved part list; every match consumes at least seven characters,
so fuel `s.length + 1` suffices. -/
def fenceSplitF : Nat → List Char → List Part
  | 0, s => [.text s]
  | fuel + 1, s =>
      match findFence s with
      | none => [.text s]
      | some (p, l, cd, r) => .text p :: .fence l cd :: fenceSplitF fuel r

def fenceSplit (s : List Char) : List Part :=
  fenceSplitF (s.length + 1) s

inductive Block
  | textBlock (bs : List MdBlock)
  | codeBlock (lang : List Char) (code : List Char)
deriving DecidableEq, Repr

/-- The loop body of `MessageContent`: text parts render through
`renderMarkdownText` when non-blank, fence parts become code blocks
(holding the language capture and raw body; the displayed HTML is
`highlightCodeToHtml code lang`). -/
def blocksOfParts : List Part → List Block
  | [] => []
  | .text t :: rest =>
      (if isBlankL t then [] else [.textBlock (renderMarkdownText t)]) ++
        blocksOfParts rest
  | .fence l cd :: rest => .codeBlock l cd :: blocksOfParts rest

/-- `MessageContent`: if no block was produced, fall back to rendering
the whole content as markdown text. -/
def messageContent (content : List Char) : List Block :=
  let bs := blocksOfParts (fenceSplit content)
  if bs.isEmpty then [.textBlock (renderMarkdownText content)] else bs

/-! ## Conversation log and `streamResponse`

`createMessage` produces a fresh random id; we model ids as naturals.
The reader/decoder loop, the `AbortError` catch, the transport-error
catch and the `finally` block of `streamResponse` are driven by an
explicit event list: zero or more decoded chunks, optionally ended by
an abort or a transport failure (a natural completion is the plain end
of the list). -/

inductive Role
  | user
  | assistant
deriving DecidableEq, Repr

structure Message where
  id : Nat
  role : Role
  content : List Char
deriving DecidableEq, Repr

/-- `item.content.trim().length > 0` fails exactly on blank content
(the `typeof item.content === 'string'` guard is vacuous here since
contents are strings by construction). -/
def getNonEmptyMessages (items : List Message) : List Message :=
  items.filter fun m => !isBlankL m.content

/-- The `messages` field of the `/api/chat` request body. -/
def requestPayload (items : List Message) : List (Role × List Char) :=
  (getNonEmptyMessages items).map fun m => (m.role, m.content)

inductive StreamEvent
  | chunk (s : List Char)
  | abort
  | fail (e : List Char)
deriving DecidableEq, Repr

/-- One chunk arriving:
`prev.map(msg => msg.id === id ? { ...msg, content: msg.content + chunk } : msg)`. -/
def applyChunk (aid : Nat) (s : List Char) (log : List Message) : List Message :=
  log.map fun m => if m.id = aid then { m with content := m.content ++ s } else m

/-- The `AbortError` handler:
`prev.filter(msg => msg.id !== assistantMessage.id || msg.content.trim())`. -/
def applyAbort (aid : Nat) (log : List Message) : List Message :=
  log.filter fun m => m.id ≠ aid || !isBlankL m.content

/-- The transport-error handler: replace the content with the error
string only when the placeholder's content is (exactly) empty
(`!msg.content`). -/
def applyFail (aid : Nat) (e : List Char) (log : List Message) : List Message :=
  log.map fun m =>
    if m.id = aid && m.content.isEmpty then
      { m with content := "Error: ".data ++ e }
    else m

/-- The read loop plus catch handlers; returns the log, the
`assistantText` accumulator and the `wasAborted` flag.  Events after
an abort or failure never occur (the loop has exited). -/
def runChunks (aid : Nat) : List StreamEvent → List Message → List Char →
    List Message × List Char × Bool
  | [], log, acc => (log, acc, false)
  | .chunk s :: rest, log, acc => runChunks aid rest (applyChunk aid s log) (acc ++ s)
  | .abort :: _, log, acc => (applyAbort aid log, acc, true)
  | .fail e :: _, log, acc => (applyFail aid e log, acc, false)

structure StreamOutcome where
  /-- the conversation log when `streamResponse` returns -/
  log : List Message
  /-- `some t` iff the `finally` block invoked `speakText(t)` -/
  spoken : Option (List Char)
  /-- the `messages` field of the request body sent to `/api/chat` -/
  payload : List (Role × List Char)
deriving DecidableEq, Repr

/-- `streamResponse(nextMessages)` with `aid` the fresh id of the
placeholder assistant message. -/
def streamResponse (nextMessages : List Message) (aid : Nat)
    (events : List StreamEvent) : StreamOutcome :=
  let log0 := nextMessages ++ [⟨aid, .assistant, []⟩]
  let res := runChunks aid events log0 []
  { log := res.1
    spoken := if !res.2.2 && !isBlankL res.2.1 then some res.2.1 else none
    payload := requestPayload nextMessages }

/-- The log/accumulator update part of `sendMessage`: trims the
utterance, is a no-op (`none`) when the trimmed text is empty or a
request is in flight, and otherwise replaces the log with the filtered
history plus the new user message (fresh id `uid`). -/
def sendMessagePrep (log : List Message) (text : List Char) (uid : Nat)
    (isLoading : Bool) : Option (List Message) :=
  let userText := jsTrim text
  if userText.isEmpty || isLoading then none
  else some (getNonEmptyMessages log ++ [⟨uid, .user, userText⟩])

/-! ## Playback controller (`speakText`, `cancelSpeechPlayback`) -/

/-- An HTMLAudioElement: paused flag, playback position
(`currentTime`), backing object-URL id (`src`). -/
structure AudioObj where
  paused : Bool
  pos : Nat
  src : Nat
deriving DecidableEq, Repr

/-- `audioRef.current` and `audioUrlRef.current`. -/
structure AudioState where
  audio : Option AudioObj
  url : Option Nat
deriving DecidableEq, Repr

/-- `cancelSpeechPlayback`: pause the current element and reset its
position; nothing else is touched. -/
def cancelSpeechPlayback (st : AudioState) : AudioState :=
  match st.audio with
  | none => st
  | some a => { st with audio := some { a with paused := true, pos := 0 } }

/-- `speakText(text)`: no-op when auto-speak is off or the text is
blank; otherwise pause any current element, revoke the current object
URL, fetch synthesis (failure modelled by `synthOk = false`, in which
case the function returns silently), then install a fresh element
playing a fresh object URL `newUrl`. -/
def speakText (autoSpeak : Bool) (text : List Char) (st : AudioState)
    (synthOk : Bool) (newUrl : Nat) : AudioState :=
  if !autoSpeak || isBlankL text then st
  else
    let st1 : AudioState :=
      { audio := st.audio.map fun a => { a with paused := true }
        url := none }
    if !synthOk then st1
    else { audio := some ⟨false, 0, newUrl⟩, url := some newUrl }

/-- The `finally` block's playback trigger: the stream outcome's log is
returned unchanged no matter how synthesis or playback goes. -/
def streamFinalize (o : StreamOutcome) (autoSpeak : Bool) (st : AudioState)
    (synthOk : Bool) (newUrl : Nat) : List Message × AudioState :=
  match o.spoken with
  | some t => (o.log, speakText autoSpeak t st synthOk newUrl)
  | none => (o.log, st)

/-! ## Capture events and barge-in -/

/-- A recognition callback: `speechstart` fires the instant speech is
detected; `result` delivers `(isFinal, transcript)` pairs from the
resume index onward. -/
inductive CaptureEvent
  | speechstart
  | result (items : List (Bool × List Char))
deriving DecidableEq, Repr

/-- The transcript state owned by a capture session: the closure
variable `finalTranscript` plus the `liveTranscript` and `input`
states. -/
structure CaptureState where
  finalTranscript : List Char
  liveTranscript : List Char
  input : List Char
deriving DecidableEq, Repr

/-- The `onresult` handler body. -/
def onResult (items : List (Bool × List Char)) (cs : CaptureState) : CaptureState :=
  let interim := (items.filter fun it => !it.1).foldl (fun acc it => acc ++ it.2) []
  let finalT := (items.filter fun it => it.1).foldl
    (fun acc it => acc ++ it.2 ++ [' ']) cs.finalTranscript
  let cleanedFinal := jsTrim finalT
  let cleanedInterim := jsTrim interim
  { finalTranscript := finalT
    liveTranscript := if cleanedInterim.isEmpty then cleanedFinal else cleanedInterim
    input := if cleanedFinal.isEmpty then cleanedInterim else cleanedFinal }

/-- One capture event: `onspeechstart` is exactly
`cancelSpeechPlayback`; `onresult` only touches transcript state. -/
def captureStep (ev : CaptureEvent) : CaptureState × AudioState → CaptureState × AudioState
  | (cs, au) =>
    match ev with
    | .speechstart => (cs, cancelSpeechPlayback au)
    | .result items => (onResult items cs, au)

def captureRun (evs : List CaptureEvent) (s : CaptureState × AudioState) :
    CaptureState × AudioState :=
  evs.foldl (fun st ev => captureStep ev st) s

/-! ## `startListening` guard (capture vs. generation) -/

/-- The slice of app state `startListening` consults:
`recognitionRef.current` (is a capture session object installed) and
`isLoadingRef.current`. -/
structure SessionState where
  recognitionActive : Bool
  isLoading : Bool
deriving DecidableEq, Repr

/-- `startListening`: `if (recognitionRef.current || isLoadingRef.current) return`
— otherwise a new recognition resource is created and installed. -/
def startListening (s : SessionState) : SessionState :=
  if s.recognitionActive || s.isLoading then s
  else { s with recognitionActive := true }

/-- The synchronous prefix of `sendMessage`/`streamResponse` up to the
first suspension point: guards on blank text / loading, then sets
`isLoading` to `true`.  It never touches `recognitionRef`. -/
def sendMessageBegin (s : SessionState) (hasText : Bool) : SessionState :=
  if !hasText || s.isLoading then s else { s with isLoading := true }


def isACodeBlock : Block → Bool
  | .codeBlock _ _ => true
  | .textBlock _ => false

/-- The spec's unterminated-fence example input:
`Use `foo()` then:\n- a\n- b\n```py\nprint(1)`. -/
def fenceExample : List Char :=
  "Use `foo()` then:\n- a\n- b\n```py\nprint(1)".data

/-- The final (text) part of the fence split: where an unterminated
trailing fence, if any, lives. -/
def fenceTail (s : List Char) : List Char :=
  match (fenceSplit s).getLast? with
  | some (.text t) => t
  | _ => []

/-- Does the text contain a fence opener (` ``` ` + optional tag + a
newline)?  On the final split part this detects an unterminated
fence: an opener that the complete-fence regex could not close. -/
def hasOpenerIn : List Char → Bool
  | [] => false
  | c :: rest => (matchOpener (c :: rest)).isSome || hasOpenerIn rest

/-- The accumulated text ends in an unterminated opening code fence. -/
def hasUntermFence (s : List Char) : Bool := hasOpenerIn (fenceTail s)


/-! ## Theorems -/


theorem replaceAllChar_nil (p : Char) (rep : List Char) :
    replaceAllChar p rep [] = [] := rfl

theorem replaceAllChar_append (p : Char) (rep : List Char) (a b : List Char) :
    replaceAllChar p rep (a ++ b) = replaceAllChar p rep a ++ replaceAllChar p rep b := by
  simp [replaceAllChar]

theorem escapeHtml_nil : escapeHtml [] = [] := rfl

theorem escapeHtml_append (a b : List Char) :
    escapeHtml (a ++ b) = escapeHtml a ++ escapeHtml b := by
  simp [escapeHtml, replaceAllChar_append]

theorem escapeHtml_cons (c : Char) (s : List Char) :
    escapeHtml (c :: s) = encodeChar c ++ escapeHtml s := by
  have h : c :: s = [c] ++ s := rfl
  rw [h, escapeHtml_append]
  congr 1
  by_cases h1 : c = '&'
  · subst h1; rfl
  · by_cases h2 : c = '<'
    · subst h2; rfl
    · by_cases h3 : c = '>'
      · subst h3; rfl
      · by_cases h4 : c = '"'
        · subst h4; rfl
        · by_cases h5 : c = '\''
          · subst h5; rfl
          · simp [escapeHtml, replaceAllChar, encodeChar, h1, h2, h3, h4, h5]

theorem ampOk_cons_of_ne (c : Char) (s : List Char) (h : ¬ c = '&') :
    ampOk (c :: s) = ampOk s := by
  simp [ampOk, h]

theorem escapeHtml_no_raw_special (s : List Char) :
    (escapeHtml s).all (fun c => !isRawSpecial c) = true := by
  induction s with
  | nil => rfl
  | cons c s ih =>
    rw [escapeHtml_cons, List.all_append, ih, Bool.and_true]
    by_cases h1 : c = '&'
    · subst h1; rfl
    · by_cases h2 : c = '<'
      · subst h2; rfl
      · by_cases h3 : c = '>'
        · subst h3; rfl
        · by_cases h4 : c = '"'
          · subst h4; rfl
          · by_cases h5 : c = '\''
            · subst h5; rfl
            · simp [encodeChar, h1, h2, h3, h4, h5, isRawSpecial]

theorem ampOk_entity_tail (tail s : List Char)
    (htail : tail = "amp;".data ∨ tail = "lt;".data ∨ tail = "gt;".data ∨
      tail = "quot;".data ∨ tail = "#039;".data)
    (hs : ampOk s = true) : ampOk ('&' :: (tail ++ s)) = true := by
  rcases htail with h | h | h | h | h <;> subst h <;>
    simp [ampOk, List.IsPrefix, hs, List.isPrefixOf_iff_prefix]

theorem ampOk_encodeChar_append (c : Char) (s : List Char)
    (hs : ampOk s = true) : ampOk (encodeChar c ++ s) = true := by
  by_cases h1 : c = '&'
  · subst h1
    exact ampOk_entity_tail "amp;".data s (Or.inl rfl) hs
  · by_cases h2 : c = '<'
    · subst h2
      exact ampOk_entity_tail "lt;".data s (Or.inr (Or.inl rfl)) hs
    · by_cases h3 : c = '>'
      · subst h3
        exact ampOk_entity_tail "gt;".data s (Or.inr (Or.inr (Or.inl rfl))) hs
      · by_cases h4 : c = '"'
        · subst h4
          exact ampOk_entity_tail "quot;".data s (Or.inr (Or.inr (Or.inr (Or.inl rfl)))) hs
        · by_cases h5 : c = '\''
          · subst h5
            exact ampOk_entity_tail "#039;".data s (Or.inr (Or.inr (Or.inr (Or.inr rfl)))) hs
          · have : encodeChar c = [c] := by
              simp [encodeChar, h1, h2, h3, h4, h5]
            rw [this, List.singleton_append, ampOk_cons_of_ne c s h1, hs]

/-- Every ampersand in `escapeHtml`'s output begins one of the five
entities the escaping itself introduces. -/
theorem escapeHtml_ampOk (s : List Char) : ampOk (escapeHtml s) = true := by
  induction s with
  | nil => rfl
  | cons c s ih =>
    rw [escapeHtml_cons]
    exact ampOk_encodeChar_append c (escapeHtml s) ih
/-! ## Lemmas about the stream session -/

theorem applyChunk_fresh (prev : List Message) (aid : Nat) (r : Role)
    (c0 s : List Char) (h : ∀ m ∈ prev, m.id ≠ aid) :
    applyChunk aid s (prev ++ [⟨aid, r, c0⟩]) = prev ++ [⟨aid, r, c0 ++ s⟩] := by
  unfold applyChunk
  rw [List.map_append]
  congr 1
  · conv_rhs => rw [show prev = prev.map id from (List.map_id prev).symm]
    apply List.map_congr_left
    intro m hm
    simp [h m hm]
  · simp

theorem runChunks_chunks (aid : Nat) (cs : List (List Char)) (evs : List StreamEvent)
    (prev : List Message) (r : Role) (c0 acc0 : List Char)
    (h : ∀ m ∈ prev, m.id ≠ aid) :
    runChunks aid (cs.map .chunk ++ evs) (prev ++ [⟨aid, r, c0⟩]) acc0 =
      runChunks aid evs (prev ++ [⟨aid, r, c0 ++ cs.flatten⟩]) (acc0 ++ cs.flatten) := by
  induction cs generalizing c0 acc0 with
  | nil => simp
  | cons s cs ih =>
      simp only [List.map_cons, List.cons_append, runChunks, List.append_eq]
      rw [applyChunk_fresh prev aid r c0 s h, ih (c0 ++ s) (acc0 ++ s)]
      simp [List.append_assoc]

theorem applyAbort_fresh (prev : List Message) (aid : Nat) (r : Role)
    (t : List Char) (h : ∀ m ∈ prev, m.id ≠ aid) :
    applyAbort aid (prev ++ [⟨aid, r, t⟩]) =
      prev ++ (if isBlankL t then [] else [⟨aid, r, t⟩]) := by
  unfold applyAbort
  rw [List.filter_append]
  congr 1
  · apply List.filter_eq_self.mpr
    intro m hm
    simp [h m hm]
  · by_cases hb : isBlankL t <;> simp [hb]

theorem applyFail_fresh (prev : List Message) (aid : Nat) (r : Role)
    (t e : List Char) (h : ∀ m ∈ prev, m.id ≠ aid) :
    applyFail aid e (prev ++ [⟨aid, r, t⟩]) =
      prev ++ [⟨aid, r, if t.isEmpty then "Error: ".data ++ e else t⟩] := by
  unfold applyFail
  rw [List.map_append]
  congr 1
  · conv_rhs => rw [show prev = prev.map id from (List.map_id prev).symm]
    apply List.map_congr_left
    intro m hm
    simp [h m hm]
  · by_cases hb : t.isEmpty
    · have ht : t = [] := by simpa using hb
      subst ht
      simp
    · have ht : ¬ t = [] := by simpa using hb
      simp [hb, ht]

/-- C3: cancelling a stream (an `AbortError` after zero or more chunks)
removes the placeholder assistant message exactly when its accumulated
content is blank; with non-blank content the message stays, holding
exactly the accumulated text, and nothing further happens to it (in
particular the `finally` block does not speak it). -/
theorem c3_cancel_semantics (prev : List Message) (aid : Nat) (cs : List (List Char))
    (h : ∀ m ∈ prev, m.id ≠ aid) :
    (isBlankL cs.flatten = true →
      (streamResponse prev aid (cs.map .chunk ++ [.abort])).log = prev) ∧
    (isBlankL cs.flatten = false →
      (streamResponse prev aid (cs.map .chunk ++ [.abort])).log =
        prev ++ [⟨aid, .assistant, cs.flatten⟩]) ∧
    (streamResponse prev aid (cs.map .chunk ++ [.abort])).spoken = none := by
  have h1 := runChunks_chunks aid cs [.abort] prev .assistant [] [] h
  simp only [List.nil_append] at h1
  simp only [streamResponse, h1, runChunks]
  rw [applyAbort_fresh prev aid .assistant cs.flatten h]
  refine ⟨fun hb => by simp [hb], fun hb => by simp [hb], by simp⟩

/-- C3 witness: cancelling after a single whitespace chunk removes the
placeholder; the original user message is untouched. -/
theorem c3_cancel_semantics_witness :
    (streamResponse [⟨0, .user, "hi".data⟩] 1
      ([[' ']].map .chunk ++ [.abort])).log = [⟨0, .user, "hi".data⟩] :=
  (c3_cancel_semantics [⟨0, .user, "hi".data⟩] 1 [[' ']] (by decide)).1 (by decide)

/-- C4: a transport failure turns the placeholder's content into the
user-visible error string exactly when zero content has accumulated;
any already-received partial content is left unchanged. -/
theorem c4_error_semantics (prev : List Message) (aid : Nat) (cs : List (List Char))
    (e : List Char) (h : ∀ m ∈ prev, m.id ≠ aid) :
    (streamResponse prev aid (cs.map .chunk ++ [.fail e])).log =
      prev ++ [⟨aid, .assistant,
        if cs.flatten.isEmpty then "Error: ".data ++ e else cs.flatten⟩] := by
  have h1 := runChunks_chunks aid cs [.fail e] prev .assistant [] [] h
  simp only [List.nil_append] at h1
  simp only [streamResponse, h1, runChunks]
  rw [applyFail_fresh prev aid .assistant cs.flatten e h]

/-- C4 witness: a failure with zero chunks received yields the error
text; a failure after a real chunk leaves that chunk's text in place. -/
theorem c4_error_semantics_witness :
    (streamResponse [⟨0, .user, "hi".data⟩] 1
      (([] : List (List Char)).map .chunk ++ [.fail "boom".data])).log =
      [⟨0, .user, "hi".data⟩, ⟨1, .assistant, "Error: boom".data⟩] ∧
    (streamResponse [⟨0, .user, "hi".data⟩] 1
      (["part".data].map .chunk ++ [.fail "boom".data])).log =
      [⟨0, .user, "hi".data⟩, ⟨1, .assistant, "part".data⟩] := by
  constructor
  · rw [c4_error_semantics [⟨0, .user, "hi".data⟩] 1 [] "boom".data (by decide)]
    decide
  · rw [c4_error_semantics [⟨0, .user, "hi".data⟩] 1 ["part".data] "boom".data (by decide)]
    decide

/-- C5: the request payload is exactly the non-blank messages of the
log (including the just-appended placeholder, which is blank and hence
never echoed back), in log order, projected to role and content. -/
theorem c5_payload_nonblank_in_order (nextMessages : List Message) (aid : Nat)
    (events : List StreamEvent) :
    (streamResponse nextMessages aid events).payload =
      List.map (fun m : Message => (m.role, m.content))
        (List.filter (fun m : Message => !isBlankL m.content)
          (nextMessages ++ [⟨aid, .assistant, []⟩])) := by
  simp [streamResponse, requestPayload, getNonEmptyMessages, List.filter_append, isBlankL]

/-- C6: a naturally completed stream with non-blank final text invokes
the playback controller exactly once, with exactly the final
accumulated text, and the final log holds that text; playback/synthesis
failures leave the log untouched. -/
theorem c6_completion_speaks_final_text (prev : List Message) (aid : Nat)
    (cs : List (List Char)) (h : ∀ m ∈ prev, m.id ≠ aid)
    (hnb : isBlankL cs.flatten = false) :
    (streamResponse prev aid (cs.map .chunk)).spoken = some cs.flatten ∧
    (streamResponse prev aid (cs.map .chunk)).log =
      prev ++ [⟨aid, .assistant, cs.flatten⟩] ∧
    ∀ (autoSpeak : Bool) (st : AudioState) (synthOk : Bool) (u : Nat),
      (streamFinalize (streamResponse prev aid (cs.map .chunk)) autoSpeak st synthOk u).1 =
        (streamResponse prev aid (cs.map .chunk)).log := by
  have h1 := runChunks_chunks aid cs [] prev .assistant [] [] h
  simp only [List.nil_append, List.append_nil] at h1
  simp only [streamResponse, h1, runChunks]
  refine ⟨by simp [hnb], by simp, ?_⟩
  intro autoSpeak st synthOk u
  simp [streamFinalize, hnb]

/-- C6 witness: the spec's example — user "hi", streamed chunks "He",
"llo!" — ends with final content "Hello!", exactly one assistant
message, and synthesis invoked once with "Hello!". -/
theorem c6_completion_speaks_final_text_witness :
    (streamResponse [⟨0, .user, "hi".data⟩] 1
      (["He".data, "llo!".data].map .chunk)).spoken = some "Hello!".data ∧
    (streamResponse [⟨0, .user, "hi".data⟩] 1
      (["He".data, "llo!".data].map .chunk)).log =
      [⟨0, .user, "hi".data⟩, ⟨1, .assistant, "Hello!".data⟩] ∧
    ((streamResponse [⟨0, .user, "hi".data⟩] 1
      (["He".data, "llo!".data].map .chunk)).log.filter
        fun m => m.role = .assistant).length = 1 := by
  have hmain := c6_completion_speaks_final_text [⟨0, .user, "hi".data⟩] 1
    ["He".data, "llo!".data] (by decide) (by decide)
  refine ⟨?_, ?_, ?_⟩
  · rw [hmain.1]; rfl
  · rw [hmain.2.1]; rfl
  · rw [hmain.2.1]; decide

/-- C7 counterexample: with an active playing handle backed by object
URL 7, the interrupt pauses and resets the element but does *not*
release the backing resource — the object URL is still installed
afterwards (release only happens in `speakText`, `onended`, or the
unmount cleanup). -/
theorem c7_interrupt_does_not_release_url :
    cancelSpeechPlayback ⟨some ⟨false, 5, 7⟩, some 7⟩ =
      ⟨some ⟨true, 0, 7⟩, some 7⟩ ∧
    (cancelSpeechPlayback ⟨some ⟨false, 5, 7⟩, some 7⟩).url ≠ none := by
  decide

/-- C7 amended: the interrupt pauses the active handle and resets its
position, is idempotent, is a no-op when no handle exists, never
touches the backing URL, and on barge-in it runs before any
subsequent recognition event is processed. -/
theorem c7_interrupt_spec :
    (∀ st : AudioState,
      cancelSpeechPlayback (cancelSpeechPlayback st) = cancelSpeechPlayback st) ∧
    (∀ u : Option Nat, cancelSpeechPlayback ⟨none, u⟩ = ⟨none, u⟩) ∧
    (∀ (st : AudioState) (a : AudioObj), st.audio = some a →
      (cancelSpeechPlayback st).audio = some { a with paused := true, pos := 0 }) ∧
    (∀ st : AudioState, (cancelSpeechPlayback st).url = st.url) ∧
    (∀ (evs : List CaptureEvent) (cs : CaptureState) (au : AudioState),
      captureRun (CaptureEvent.speechstart :: evs) (cs, au) =
        captureRun evs (cs, cancelSpeechPlayback au)) := by
  refine ⟨?_, ?_, ?_, ?_, ?_⟩
  · intro st
    cases h : st.audio <;> simp [cancelSpeechPlayback, h]
  · intro u
    simp [cancelSpeechPlayback]
  · intro st a h
    simp [cancelSpeechPlayback, h]
  · intro st
    cases h : st.audio <;> simp [cancelSpeechPlayback, h]
  · intro evs cs au
    simp [captureRun, captureStep]

/-- C7 witness for the amended statement: the pause/reset clause at a
concrete active handle. -/
theorem c7_interrupt_spec_witness :
    (cancelSpeechPlayback ⟨some ⟨false, 5, 7⟩, some 7⟩).audio = some ⟨true, 0, 7⟩ :=
  c7_interrupt_spec.2.2.1 ⟨some ⟨false, 5, 7⟩, some 7⟩ ⟨false, 5, 7⟩ rfl

/-- C8 counterexample: a reachable state in which capture is active
*while* a generation request is in flight — start listening while
idle, then submit a typed utterance; `sendMessage`/`streamResponse`
never stop the recognition session, so the system does record while
the assistant is awaiting a response. -/
theorem c8_capture_survives_generation_start :
    (sendMessageBegin (startListening ⟨false, false⟩) true).recognitionActive = true ∧
    (sendMessageBegin (startListening ⟨false, false⟩) true).isLoading = true := by
  decide

/-- C8 amended: `startListening` is a no-op — no new recognition
resource is created and the state is untouched — whenever a capture
session already exists or a generation request is in flight; the
system never *starts* capture while loading (but a previously started
session keeps running, per the counterexample). -/
theorem c8_startListening_noop (s : SessionState)
    (h : s.recognitionActive = true ∨ s.isLoading = true) :
    startListening s = s := by
  rcases h with h | h <;> simp [startListening, h]

/-- C8 witness: the no-op at a concrete loading state. -/
theorem c8_startListening_noop_witness :
    startListening ⟨false, true⟩ = ⟨false, true⟩ :=
  c8_startListening_noop ⟨false, true⟩ (Or.inr rfl)

/-- C9 counterexample: a stream that completes naturally with a single
whitespace chunk leaves a blank assistant message in the log; the next
`sendMessage` silently removes it, although it is neither the
streaming message nor an empty cancelled placeholder. -/
theorem c9_send_drops_blank_assistant :
    (streamResponse [⟨0, .user, "hi".data⟩] 1 [.chunk [' ']]).log =
      [⟨0, .user, "hi".data⟩, ⟨1, .assistant, [' ']⟩] ∧
    sendMessagePrep [⟨0, .user, "hi".data⟩, ⟨1, .assistant, [' ']⟩]
        "again".data 2 false =
      some [⟨0, .user, "hi".data⟩, ⟨2, .user, "again".data⟩] ∧
    (⟨1, .assistant, [' ']⟩ : Message) ∈
      [⟨0, .user, "hi".data⟩, ⟨1, .assistant, [' ']⟩] ∧
    (⟨1, .assistant, [' ']⟩ : Message) ∉
      [⟨0, .user, "hi".data⟩, ⟨2, .user, "again".data⟩] := by
  decide

/-- C9 amended: the log is append-only up to (a) streaming mutation of
the placeholder only, (b) abort-removal of the blank placeholder only,
and (c) `sendMessage` dropping *blank* messages: every non-blank
message survives a `sendMessage`, and chunk/abort steps keep every
message other than the placeholder untouched. -/
theorem c9_log_mutation_spec :
    (∀ (log : List Message) (text : List Char) (uid : Nat) (L : List Message),
      sendMessagePrep log text uid false = some L →
        L = getNonEmptyMessages log ++ [⟨uid, .user, jsTrim text⟩] ∧
        ∀ m ∈ log, isBlankL m.content = false → m ∈ L) ∧
    (∀ (aid : Nat) (s : List Char) (log : List Message) (m : Message),
      m ∈ log → m.id ≠ aid → m ∈ applyChunk aid s log) ∧
    (∀ (aid : Nat) (log : List Message) (m : Message),
      m ∈ log → m.id ≠ aid → m ∈ applyAbort aid log) := by
  refine ⟨?_, ?_, ?_⟩
  · intro log text uid L hL
    unfold sendMessagePrep at hL
    by_cases hg : (jsTrim text).isEmpty
    · simp [hg] at hL
    · simp only [hg, Bool.false_or, if_neg] at hL
      rw [if_neg (by simp)] at hL
      refine ⟨(Option.some_injective _ hL).symm, ?_⟩
      intro m hm hmb
      rw [← (Option.some_injective _ hL)]
      exact List.mem_append_left _ (List.mem_filter.mpr ⟨hm, by simp [hmb]⟩)
  · intro aid s log m hm hne
    unfold applyChunk
    have : (if m.id = aid then { m with content := m.content ++ s } else m) = m := by
      simp [hne]
    rw [← this]
    exact List.mem_map_of_mem _ hm
  · intro aid log m hm hne
    unfold applyAbort
    exact List.mem_filter.mpr ⟨hm, by simp [hne]⟩

/-- C9 witness for the amended statement: a non-blank assistant turn
survives the next `sendMessage`. -/
theorem c9_log_mutation_spec_witness :
    (⟨1, .assistant, "ok".data⟩ : Message) ∈
      (getNonEmptyMessages [⟨0, .user, "hi".data⟩, ⟨1, .assistant, "ok".data⟩] ++
        [(⟨3, .user, "x".data⟩ : Message)]) :=
  (c9_log_mutation_spec.1 [⟨0, .user, "hi".data⟩, ⟨1, .assistant, "ok".data⟩]
      "x".data 3 (getNonEmptyMessages [⟨0, .user, "hi".data⟩, ⟨1, .assistant, "ok".data⟩] ++
        [⟨3, .user, "x".data⟩]) (by decide)).2
    ⟨1, .assistant, "ok".data⟩ (by decide) (by decide)

/-- C10 counterexample: for input `// x` with language `js`, the
comment pass injects `<span class="token-comment">…</span>`; the
string pass (which scans the comment pass's output inside
`highlightCodeToHtml`) then wraps the quoted attribute value
`"token-comment"` — a capture that is *not* a substring of the escaped
input, so highlighting spans are not applied only to already-escaped
text. -/
theorem c10_string_span_wraps_injected_markup :
    "\"token-comment\"".data ∈ stringPassCaptures "// x".data ∧
    ¬ ("\"token-comment\"".data <:+: escapeHtml "// x".data) := by
  decide

/-- C10 amended: `escapeHtml` emits no raw `<`, `>`, `"`, `'`; every
`&` in its output begins one of the entities the escaping introduced
(`&` is escaped first, so input entities cannot be re-interpreted);
`highlightCodeToHtml` escapes before highlighting — for an absent
language tag the output is exactly the escaped text — but for known
languages later passes may wrap markup injected by earlier passes. -/
theorem c10_escape_guarantees :
    (∀ s : List Char, (escapeHtml s).all (fun c => !isRawSpecial c) = true) ∧
    (∀ s : List Char, ampOk (escapeHtml s) = true) ∧
    (∀ code : List Char, highlightCodeToHtml code [] = escapeHtml code) := by
  refine ⟨escapeHtml_no_raw_special, escapeHtml_ampOk, ?_⟩
  intro code
  have h1 : toLowerL ([] : List Char) ∉ jsLangs := by decide
  have h2 : ¬ toLowerL ([] : List Char) = "json".data := by decide
  simp [highlightCodeToHtml, h1, h2]

/-- C1 counterexample: on the spec's example the renderer produces a
single text block and *no* code block at all — the complete-fence
regex never matches an unterminated fence, so the claimed three-block
rendering (paragraph, list, `py` code block) does not happen. -/
theorem c1_renders_no_code_block :
    (messageContent fenceExample).length = 1 ∧
    (messageContent fenceExample).all (fun b => !isACodeBlock b) = true := by
  decide

/-- C1 amended: an unterminated trailing fence is never dropped, but it
is rendered as markdown text rather than as a code block: the example
yields one text block holding a paragraph with an inline-code span, a
two-item list, a paragraph with the raw marker line ```` ```py ````,
and a paragraph `print(1)`. -/
theorem c1_unterminated_fence_renders_as_text :
    messageContent fenceExample =
      [Block.textBlock
        [MdBlock.para [Inline.text "Use ".data, Inline.code "foo()".data,
          Inline.text " then:".data],
         MdBlock.ul [[Inline.text "a".data], [Inline.text "b".data]],
         MdBlock.para [Inline.text "```py".data],
         MdBlock.para [Inline.text "print(1)".data]]] := by
  decide

/-! ## Append-stability of the fence split (for C2)

The key structural facts: a complete fence match found in `t` is still
the first match in `t ++ c`, so the parts before the final text part
of the split never change as the stream grows. -/

theorem takeWhile_all_append (p : Char → Bool) (l : List Char) (y : Char)
    (z : List Char) (hl : ∀ a ∈ l, p a = true) (hy : p y = false) :
    (l ++ y :: z).takeWhile p = l ∧ (l ++ y :: z).dropWhile p = y :: z := by
  induction l with
  | nil => simp [List.takeWhile_cons, List.dropWhile_cons, hy]
  | cons a l ih =>
      have ha := hl a (by simp)
      have ih' := ih fun b hb => hl b (by simp [hb])
      simp [List.takeWhile_cons, List.dropWhile_cons, ha, ih'.1, ih'.2]

theorem matchOpener_decomp {s lang body : List Char}
    (h : matchOpener s = some (lang, body)) :
    s = '`' :: '`' :: '`' :: (lang ++ '\n' :: body) ∧
      ∀ a ∈ lang, isFenceChar a = true := by
  unfold matchOpener at h
  split at h
  · rename_i rest
    split at h
    · rename_i body' heq
      injection h with h'
      have h1 : rest.takeWhile isFenceChar = lang := congrArg Prod.fst h'
      have h2 : body' = body := congrArg Prod.snd h'
      subst h1
      subst h2
      refine ⟨?_, fun a ha => List.mem_takeWhile_imp ha⟩
      have hr : rest = rest.takeWhile isFenceChar ++ rest.dropWhile isFenceChar :=
        (List.takeWhile_append_dropWhile isFenceChar rest).symm
      rw [heq] at hr
      exact congrArg (fun l => '`' :: '`' :: '`' :: l) hr
    · cases h
  · cases h

theorem matchOpener_append {s lang body : List Char} (c : List Char)
    (h : matchOpener s = some (lang, body)) :
    matchOpener (s ++ c) = some (lang, body ++ c) := by
  obtain ⟨hs, hlang⟩ := matchOpener_decomp h
  subst hs
  have key := takeWhile_all_append isFenceChar lang '\n' (body ++ c) hlang (by decide)
  have hshape : '`' :: '`' :: '`' :: (lang ++ '\n' :: body) ++ c
      = '`' :: '`' :: '`' :: (lang ++ '\n' :: (body ++ c)) := by simp
  rw [hshape]
  simp [matchOpener, key.1, key.2]

theorem splitAtTicks_decomp {s p r : List Char}
    (h : splitAtTicks s = some (p, r)) : s = p ++ '`' :: '`' :: '`' :: r := by
  induction s using splitAtTicks.induct generalizing p r with
  | case1 => cases h
  | case2 rest =>
      unfold splitAtTicks at h
      injection h with h'
      have h1 : ([] : List Char) = p := congrArg Prod.fst h'
      have h2 : rest = r := congrArg Prod.snd h'
      subst h1
      subst h2
      rfl
  | case3 c rest hne ih =>
      unfold splitAtTicks at h
      split at h
      · rename_i heq
        cases heq
      · rename_i rest1 heq
        injection heq with e1 e2
        exact absurd rfl (by
          subst e1
          exact fun hc => hne rest1 hc e2)
      · rename_i c' rest' hfun heq
        injection heq with e1 e2
        subst e1
        subst e2
        obtain ⟨⟨p', r'⟩, hsome, hmk⟩ := Option.map_eq_some'.mp h
        have hp : c :: p' = p := congrArg Prod.fst hmk
        have hr : r' = r := congrArg Prod.snd hmk
        subst hp
        subst hr
        rw [ih hsome]
        rfl

theorem splitAtTicks_ticks (w : List Char) :
    splitAtTicks ('`' :: '`' :: '`' :: w) = some ([], w) := by
  simp [splitAtTicks]

theorem splitAtTicks_append {s p r : List Char} (c : List Char)
    (h : splitAtTicks s = some (p, r)) :
    splitAtTicks (s ++ c) = some (p, r ++ c) := by
  induction s using splitAtTicks.induct generalizing p r with
  | case1 => cases h
  | case2 rest =>
      rw [splitAtTicks_ticks] at h
      injection h with h'
      have h1 : ([] : List Char) = p := congrArg Prod.fst h'
      have h2 : rest = r := congrArg Prod.snd h'
      subst h1
      subst h2
      show splitAtTicks ('`' :: '`' :: '`' :: (rest ++ c)) = some ([], rest ++ c)
      exact splitAtTicks_ticks (rest ++ c)
  | case3 c' rest hne ih =>
      unfold splitAtTicks at h
      split at h
      · rename_i heq
        cases heq
      · rename_i rest1 heq
        injection heq with e1 e2
        exact (hne rest1 e1 e2).elim
      · rename_i c'' rest'' hfun heq
        injection heq with e1 e2
        subst e1
        subst e2
        obtain ⟨⟨p', r'⟩, hsome, hmk⟩ := Option.map_eq_some'.mp h
        have hp : c' :: p' = p := congrArg Prod.fst hmk
        have hr : r' = r := congrArg Prod.snd hmk
        subst hp
        subst hr
        have hdec := splitAtTicks_decomp hsome
        show splitAtTicks (c' :: (rest ++ c)) = some (c' :: p', r' ++ c)
        unfold splitAtTicks
        split
        · rename_i heq2
          cases heq2
        · rename_i rest1 heq2
          injection heq2 with f1 f2
          -- rest ++ c = '`' :: '`' :: rest1 while rest = p' ++ ``` r':
          -- rest itself starts with two backticks, contradicting hne
          exfalso
          have hlen : 2 ≤ rest.length := by
            rw [hdec]
            simp
            omega
          match rest, hlen with
          | a :: b :: t, _ =>
            have f2' : a :: b :: (t ++ c) = '`' :: '`' :: rest1 := by
              simpa using f2
            injection f2' with g1 g2
            injection g2 with g2 g3
            exact hne t f1 (by rw [g1, g2])
        · rename_i c2 rest2 hfun2 heq2
          injection heq2 with f1 f2
          subst f1
          subst f2
          rw [ih hsome]
          rfl

theorem splitAtTicks_isSome_of_ticks (u v : List Char) :
    (splitAtTicks (u ++ '`' :: '`' :: '`' :: v)).isSome = true := by
  induction u with
  | nil => rw [List.nil_append, splitAtTicks_ticks]; rfl
  | cons a u ih =>
      show (splitAtTicks (a :: (u ++ '`' :: '`' :: '`' :: v))).isSome = true
      unfold splitAtTicks
      split
      · rename_i heq
        cases heq
      · rfl
      · rename_i c2 rest2 hfun2 heq2
        injection heq2 with f1 f2
        subst f1
        subst f2
        obtain ⟨pr, hpr⟩ := Option.isSome_iff_exists.mp ih
        rw [hpr]
        rfl

theorem dropWhile_cons_head {p : Char → Bool} {l : List Char} {d : Char}
    {ds : List Char} (h : l.dropWhile p = d :: ds) : p d = false := by
  induction l with
  | nil => cases h
  | cons a l ih =>
      rw [List.dropWhile_cons] at h
      by_cases ha : p a
      · rw [if_pos ha] at h
        exact ih h
      · rw [if_neg ha] at h
        injection h with e1 e2
        subst e1
        simpa using ha

theorem dropWhile_append_of_stops {p : Char → Bool} {l : List Char} {d : Char}
    {ds : List Char} (c : List Char) (h : l.dropWhile p = d :: ds) :
    (l ++ c).dropWhile p = d :: (ds ++ c) := by
  have hl : l = l.takeWhile p ++ d :: ds := by
    conv_lhs => rw [← List.takeWhile_append_dropWhile p l]
    rw [h]
  have hd : p d = false := dropWhile_cons_head h
  have key := takeWhile_all_append p (l.takeWhile p) d (ds ++ c)
    (fun a ha => List.mem_takeWhile_imp ha) hd
  calc (l ++ c).dropWhile p
      = (l.takeWhile p ++ d :: (ds ++ c)).dropWhile p := by
        rw [show l.takeWhile p ++ d :: (ds ++ c) = (l.takeWhile p ++ d :: ds) ++ c by simp,
          ← hl]
    _ = d :: (ds ++ c) := key.2

/-- A failed opener attempt stays failed as the text grows, provided
the scanned region already contains a newline (which every position
left of a complete fence match does). -/
theorem matchOpener_none_append {x : Char} {rest : List Char} (c : List Char)
    (hnone : matchOpener (x :: rest) = none) (hnl : '\n' ∈ rest) :
    matchOpener (x :: (rest ++ c)) = none := by
  unfold matchOpener
  split
  · rename_i q heq
    -- x :: (rest ++ c) = '`' :: '`' :: '`' :: q
    injection heq with e1 e2
    subst e1
    -- rest has at least two characters: it contains '\n' and, if it were
    -- shorter, rest ++ c could not start with two backticks
    match rest, hnl, e2 with
    | [r0], hnl, e2 =>
        have : '\n' = r0 := by simpa using hnl
        subst this
        injection e2 with f1 f2
        exact absurd f1 (by decide)
    | r0 :: r1 :: rtail, hnl, e2 =>
        injection e2 with f1 f2
        injection f2 with f2 f3
        subst f1
        subst f2
        -- so rest = '`' :: '`' :: rtail and q = rtail ++ c
        subst f3
        -- hnone now says the opener at x :: rest failed on the dropWhile test
        have hnl' : '\n' ∈ rtail := by
          simpa using hnl
        unfold matchOpener at hnone
        split at hnone
        · rename_i q0 heq0
          injection heq0 with g1 g2
          injection g2 with g2 g3
          injection g3 with g3 g4
          subst g4
          split at hnone
          · cases hnone
          · rename_i hshape
            -- dropWhile on rtail does not produce '\n' :: _, and rtail
            -- contains a non-fence char ('\n'), so appending c keeps the
            -- same head
            have hne : rtail.dropWhile isFenceChar ≠ [] := by
              intro hemp
              have := (List.dropWhile_eq_nil_iff.mp hemp) '\n' hnl'
              exact absurd this (by decide)
            obtain ⟨d, ds, hds⟩ : ∃ d ds, rtail.dropWhile isFenceChar = d :: ds := by
              cases hx : rtail.dropWhile isFenceChar with
              | nil => exact absurd hx hne
              | cons d ds => exact ⟨d, ds, rfl⟩
            have hd : d ≠ '\n' := by
              intro hdn
              subst hdn
              exact hshape ds hds
            simp only [List.append_eq]
            rw [dropWhile_append_of_stops c hds]
            split
            · rename_i body heq2
              injection heq2 with e3 e4
              exact absurd e3 hd
            · rfl
        · rename_i hshape0
          exact (hshape0 rtail rfl).elim
  · rfl

theorem findFence_decomp {s p l cd r : List Char}
    (h : findFence s = some (p, l, cd, r)) :
    s = p ++ '`' :: '`' :: '`' :: (l ++ '\n' :: (cd ++ '`' :: '`' :: '`' :: r)) ∧
      ∀ a ∈ l, isFenceChar a = true := by
  induction s generalizing p l cd r with
  | nil => cases h
  | cons x rest ih =>
      unfold findFence at h
      split at h
      · rename_i lang body hopener
        split at h
        · rename_i cd0 after0 hticks
          injection h with h'
          have e1 : ([] : List Char) = p := congrArg Prod.fst h'
          have e2 : lang = l := congrArg (fun z => z.2.1) h'
          have e3 : cd0 = cd := congrArg (fun z => z.2.2.1) h'
          have e4 : after0 = r := congrArg (fun z => z.2.2.2) h'
          subst e1
          subst e2
          subst e3
          subst e4
          obtain ⟨hs, hlang⟩ := matchOpener_decomp hopener
          have hb := splitAtTicks_decomp hticks
          rw [hb] at hs
          exact ⟨hs, hlang⟩
        · rename_i hticks
          obtain ⟨⟨p', l', cd', r'⟩, hsome, hmk⟩ := Option.map_eq_some'.mp h
          have e1 : x :: p' = p := congrArg Prod.fst hmk
          have e2 : l' = l := congrArg (fun z => z.2.1) hmk
          have e3 : cd' = cd := congrArg (fun z => z.2.2.1) hmk
          have e4 : r' = r := congrArg (fun z => z.2.2.2) hmk
          subst e1
          subst e2
          subst e3
          subst e4
          obtain ⟨hrest, hlang⟩ := ih hsome
          exact ⟨by rw [List.cons_append, ← hrest], hlang⟩
      · rename_i hopener
        obtain ⟨⟨p', l', cd', r'⟩, hsome, hmk⟩ := Option.map_eq_some'.mp h
        have e1 : x :: p' = p := congrArg Prod.fst hmk
        have e2 : l' = l := congrArg (fun z => z.2.1) hmk
        have e3 : cd' = cd := congrArg (fun z => z.2.2.1) hmk
        have e4 : r' = r := congrArg (fun z => z.2.2.2) hmk
        subst e1
        subst e2
        subst e3
        subst e4
        obtain ⟨hrest, hlang⟩ := ih hsome
        exact ⟨by rw [List.cons_append, ← hrest], hlang⟩

/-- Skipping an all-fence-char language tag: a triple backtick cannot
start inside `lang ++ '\n' :: …`, so it must lie inside the body. -/
theorem ticks_skip_lang {lang body p0 R : List Char}
    (hlang : ∀ a ∈ lang, isFenceChar a = true)
    (heq : lang ++ '\n' :: body = p0 ++ '`' :: '`' :: '`' :: R) :
    ∃ u v, body = u ++ '`' :: '`' :: '`' :: v := by
  induction lang generalizing p0 with
  | nil =>
      cases p0 with
      | nil =>
          injection heq with e1 e2
          exact absurd e1 (by decide)
      | cons q p0' =>
          injection heq with e1 e2
          exact ⟨p0', R, e2⟩
  | cons a lang' ih =>
      cases p0 with
      | nil =>
          injection heq with e1 e2
          have := hlang a (by simp)
          rw [e1] at this
          exact absurd this (by decide)
      | cons q p0' =>
          injection heq with e1 e2
          exact ih (fun b hb => hlang b (by simp [hb])) e2

/-- A backtick run that closes a later fence cannot hide inside the
opener prefix `'`' :: '`' :: lang ++ '\n' :: …`. -/
theorem ticks_in_body {lang body p0 R : List Char}
    (hlang : ∀ a ∈ lang, isFenceChar a = true)
    (heq : '`' :: '`' :: (lang ++ '\n' :: body) = p0 ++ '`' :: '`' :: '`' :: R) :
    ∃ u v, body = u ++ '`' :: '`' :: '`' :: v := by
  cases p0 with
  | nil =>
      injection heq with e1 e2
      injection e2 with e2 e3
      cases hl : lang with
      | nil =>
          rw [hl] at e3
          injection e3 with e4 e5
          exact absurd e4 (by decide)
      | cons a lang' =>
          rw [hl] at e3
          injection e3 with e4 e5
          have := hlang a (by simp [hl])
          rw [e4] at this
          exact absurd this (by decide)
  | cons q0 p0' =>
      injection heq with e1 e2
      cases p0' with
      | nil =>
          injection e2 with e3 e4
          cases hl : lang with
          | nil =>
              rw [hl] at e4
              injection e4 with e5 e6
              exact absurd e5 (by decide)
          | cons a lang' =>
              rw [hl] at e4
              injection e4 with e5 e6
              have := hlang a (by simp [hl])
              rw [e5] at this
              exact absurd this (by decide)
      | cons q1 p0'' =>
          injection e2 with e3 e4
          exact ticks_skip_lang hlang e4

/-- The first complete fence match of `t` is still the first match of
`t ++ c`. -/
theorem findFence_append {s p l cd r : List Char} (c : List Char)
    (h : findFence s = some (p, l, cd, r)) :
    findFence (s ++ c) = some (p, l, cd, r ++ c) := by
  induction s generalizing p l cd r with
  | nil => cases h
  | cons x rest ih =>
      unfold findFence at h
      split at h
      · rename_i lang body hopener
        split at h
        · rename_i cd0 after0 hticks
          injection h with h'
          have e1 : ([] : List Char) = p := congrArg Prod.fst h'
          have e2 : lang = l := congrArg (fun z => z.2.1) h'
          have e3 : cd0 = cd := congrArg (fun z => z.2.2.1) h'
          have e4 : after0 = r := congrArg (fun z => z.2.2.2) h'
          subst e1
          subst e2
          subst e3
          subst e4
          have hop2 := matchOpener_append c hopener
          have ht2 := splitAtTicks_append c hticks
          rw [show (x :: rest) ++ c = x :: (rest ++ c) from rfl] at hop2
          show findFence (x :: (rest ++ c)) = some ([], lang, cd0, after0 ++ c)
          unfold findFence
          simp only [hop2, ht2]
        · rename_i hticks
          -- impossible: the recursive match inside `rest` would place a
          -- closing ``` inside `body`
          obtain ⟨⟨p', l', cd', r'⟩, hsome, _⟩ := Option.map_eq_some'.mp h
          obtain ⟨hs, hlang⟩ := matchOpener_decomp hopener
          injection hs with f1 f2
          obtain ⟨hrest, _⟩ := findFence_decomp hsome
          rw [f2] at hrest
          obtain ⟨u, v, huv⟩ := ticks_in_body hlang hrest
          have : (splitAtTicks body).isSome = true := by
            rw [huv]
            exact splitAtTicks_isSome_of_ticks u v
          rw [hticks] at this
          cases this
      · rename_i hopener
        obtain ⟨⟨p', l', cd', r'⟩, hsome, hmk⟩ := Option.map_eq_some'.mp h
        have e1 : x :: p' = p := congrArg Prod.fst hmk
        have e2 : l' = l := congrArg (fun z => z.2.1) hmk
        have e3 : cd' = cd := congrArg (fun z => z.2.2.1) hmk
        have e4 : r' = r := congrArg (fun z => z.2.2.2) hmk
        subst e1
        subst e2
        subst e3
        subst e4
        have hnl : '\n' ∈ rest := by
          obtain ⟨hrest, _⟩ := findFence_decomp hsome
          rw [hrest]
          simp
        have hop2 := matchOpener_none_append c hopener hnl
        show findFence (x :: (rest ++ c)) = some (x :: p', l', cd', r' ++ c)
        unfold findFence
        simp only [hop2]
        rw [ih hsome]
        rfl

theorem findFence_shrinks {s p l cd r : List Char}
    (h : findFence s = some (p, l, cd, r)) : r.length < s.length := by
  have hd := (findFence_decomp h).1
  rw [hd]
  simp
  omega

theorem fenceSplitF_fuel (f1 : Nat) : ∀ (f2 : Nat) (s : List Char),
    s.length < f1 → s.length < f2 → fenceSplitF f1 s = fenceSplitF f2 s := by
  induction f1 with
  | zero =>
      intro f2 s h1 _
      omega
  | succ f1 ih =>
      intro f2 s h1 h2
      cases f2 with
      | zero => omega
      | succ f2 =>
          show fenceSplitF (f1 + 1) s = fenceSplitF (f2 + 1) s
          unfold fenceSplitF
          cases hf : findFence s with
          | none => rfl
          | some q =>
              obtain ⟨p, l, cd, r⟩ := q
              have hr := findFence_shrinks hf
              show Part.text p :: Part.fence l cd :: fenceSplitF f1 r =
                Part.text p :: Part.fence l cd :: fenceSplitF f2 r
              rw [ih f2 r (by omega) (by omega)]

theorem fenceSplit_of_none {s : List Char} (h : findFence s = none) :
    fenceSplit s = [.text s] := by
  unfold fenceSplit
  show fenceSplitF (s.length + 1) s = _
  unfold fenceSplitF
  rw [h]

theorem fenceSplit_of_some {s p l cd r : List Char}
    (h : findFence s = some (p, l, cd, r)) :
    fenceSplit s = .text p :: .fence l cd :: fenceSplit r := by
  have e1 : fenceSplit s = fenceSplitF (s.length + 1) s := rfl
  rw [e1]
  unfold fenceSplitF
  rw [h]
  show Part.text p :: Part.fence l cd :: fenceSplitF s.length r = _
  rw [fenceSplitF_fuel s.length (r.length + 1) r (findFence_shrinks h) (by omega)]
  rfl

theorem fenceSplit_ends_text (s : List Char) :
    ∃ q tk, fenceSplit s = q ++ [Part.text tk] := by
  generalize hn : s.length = n
  induction n using Nat.strong_induction_on generalizing s with
  | _ n ih =>
      cases hf : findFence s with
      | none => exact ⟨[], s, by rw [fenceSplit_of_none hf]; rfl⟩
      | some q =>
          obtain ⟨p, l, cd, r⟩ := q
          obtain ⟨q0, tk, hq⟩ := ih r.length (by subst hn; exact findFence_shrinks hf) r rfl
          exact ⟨.text p :: .fence l cd :: q0, tk, by rw [fenceSplit_of_some hf, hq]; rfl⟩

theorem fenceTail_eq (s : List Char) (q : List Part) (tk : List Char)
    (h : fenceSplit s = q ++ [.text tk]) : fenceTail s = tk := by
  unfold fenceTail
  rw [h, List.getLast?_concat]

theorem fenceSplit_append (s c : List Char) :
    fenceSplit (s ++ c) =
      (fenceSplit s).dropLast ++ fenceSplit (fenceTail s ++ c) := by
  generalize hn : s.length = n
  induction n using Nat.strong_induction_on generalizing s with
  | _ n ih =>
      cases hf : findFence s with
      | none =>
          have h1 := fenceSplit_of_none hf
          have htail : fenceTail s = s := fenceTail_eq s [] s (by rw [h1]; rfl)
          rw [h1, htail]
          simp
      | some q =>
          obtain ⟨p, l, cd, r⟩ := q
          have h1 := fenceSplit_of_some hf
          have h2 := fenceSplit_of_some (findFence_append c hf)
          obtain ⟨q0, tk, hq⟩ := fenceSplit_ends_text r
          have htail_s : fenceTail s = tk :=
            fenceTail_eq s (.text p :: .fence l cd :: q0) tk (by rw [h1, hq]; rfl)
          have htail_r : fenceTail r = tk := fenceTail_eq r q0 tk hq
          have ihr := ih r.length (by subst hn; exact findFence_shrinks hf) r rfl
          have d2 : (Part.text p :: Part.fence l cd :: (q0 ++ [Part.text tk])).dropLast
              = Part.text p :: Part.fence l cd :: q0 := by
            rw [show Part.text p :: Part.fence l cd :: (q0 ++ [Part.text tk])
                = (Part.text p :: Part.fence l cd :: q0) ++ [Part.text tk] by simp]
            exact List.dropLast_concat
          rw [h2, ihr, htail_r, h1, htail_s, hq, d2, List.dropLast_concat]
          simp

theorem blocksOfParts_append (a b : List Part) :
    blocksOfParts (a ++ b) = blocksOfParts a ++ blocksOfParts b := by
  induction a with
  | nil => rfl
  | cons x a ih =>
      cases x <;> simp [blocksOfParts, ih]

/-- C2: when the accumulated text `t` ends in an unterminated fence,
every rendered block except the final text block (the one holding the
unterminated tail) appears again in the rendering of `t ++ c`: growing
the input never loses the blocks that precede the unterminated tail. -/
theorem c2_growth_preserves_blocks (t c : List Char)
    (_h : hasUntermFence t = true) :
    ∀ b ∈ (messageContent t).dropLast, b ∈ messageContent (t ++ c) := by
  intro b hb
  obtain ⟨q, tk, hq⟩ := fenceSplit_ends_text t
  have hdropparts : (fenceSplit t).dropLast = q := by
    rw [hq]
    exact List.dropLast_concat
  have hsplit : blocksOfParts (fenceSplit t) =
      blocksOfParts q ++ blocksOfParts [Part.text tk] := by
    rw [hq, blocksOfParts_append]
  have hb' : b ∈ blocksOfParts q := by
    unfold messageContent at hb
    by_cases hempty : (blocksOfParts (fenceSplit t)).isEmpty
    · rw [if_pos hempty] at hb
      simp at hb
    · rw [if_neg hempty] at hb
      rw [hsplit] at hb
      by_cases hblank : isBlankL tk
      · have hz : blocksOfParts [Part.text tk] = [] := by
          simp [blocksOfParts, hblank]
        rw [hz, List.append_nil] at hb
        exact List.dropLast_subset _ hb
      · have hz : blocksOfParts [Part.text tk] =
            [.textBlock (renderMarkdownText tk)] := by
          simp [blocksOfParts, hblank]
        rw [hz, List.dropLast_concat] at hb
        exact hb
  have htail : fenceTail t = tk := fenceTail_eq t q tk hq
  have hmem2 : b ∈ blocksOfParts (fenceSplit (t ++ c)) := by
    rw [fenceSplit_append t c, blocksOfParts_append, htail, hdropparts]
    exact List.mem_append_left _ hb'
  unfold messageContent
  have hne : ¬ (blocksOfParts (fenceSplit (t ++ c))).isEmpty = true := by
    intro hx
    rw [List.isEmpty_iff] at hx
    rw [hx] at hmem2
    cases hmem2
  rw [if_neg hne]
  exact hmem2

/-- C2 witness: a log text with a completed `py` fence followed by an
unterminated `js` fence; after the closing chunk arrives, the first
text block of the earlier rendering is still present. -/
theorem c2_growth_preserves_blocks_witness :
    Block.textBlock [MdBlock.para [Inline.text "hi".data], MdBlock.spacer] ∈
      messageContent ("hi\n```py\na\n```\nmore\n```js\nb".data ++ "\n```".data) :=
  c2_growth_preserves_blocks "hi\n```py\na\n```\nmore\n```js\nb".data "\n```".data
    (by decide) (Block.textBlock [MdBlock.para [Inline.text "hi".data], MdBlock.spacer])
    (by decide)

end LocalGpt
